import Mathlib

/-!
Verification of the ArcBackup backup orchestrator (`src/arcbck/arcbck.py`).

The development shallowly embeds the pure/control parts of `arcbck.py`:
 * the date-pattern matcher (`_convert_date_format_to_regex`,
   `_extract_date_from_filename`, together with the Python stdlib
   behaviour of `re.search` on the generated fixed-width patterns and of
   `datetime.strptime` / `datetime.strftime` on the supported directives);
 * the retention loop of `run` (the `while True:` loop deleting old
   backup directories);
 * the single-threaded retry queue of `run` (the `while not
   request_queue.empty():` loop), with the filesystem/network effects of
   one backup attempt abstracted into an outcome oracle;
 * the final `success` aggregation over the `backup_log` ledger;
 * the item filter and the zero-items abort, and the directory-creation
   exception dispatch at the top of `run`.

Filesystem and network effects are made explicit: directory listings,
`makedirs` outcomes and per-attempt pipeline outcomes are inputs of the
model, and deletions/attempts are returned as explicit lists/traces.
-/

/-- A Python `datetime.datetime` value (year, month, day, hour, minute,
second); microseconds are irrelevant here and omitted. -/
structure PyDateTime where
  year : Nat
  month : Nat
  day : Nat
  hour : Nat
  minute : Nat
  second : Nat
deriving DecidableEq, Repr

/-- Mixed-radix key. For field values in their calendar ranges (month
1..12, day 1..31, hour 0..23, minute/second 0..59) comparing keys agrees
with Python's lexicographic `datetime` comparison; every datetime
produced by `strptime` below is in range. -/
def PyDateTime.key (dt : PyDateTime) : Nat :=
  ((((dt.year * 13 + dt.month) * 32 + dt.day) * 24 + dt.hour) * 60 + dt.minute) * 60 + dt.second

/-- Days of a month, with the Gregorian leap rule — mirrors the validation
done by the `datetime` constructor inside `strptime`. -/
def daysInMonth (y m : Nat) : Nat :=
  if m = 2 then (if (y % 4 = 0 ∧ y % 100 ≠ 0) ∨ y % 400 = 0 then 29 else 28)
  else if m = 4 ∨ m = 6 ∨ m = 9 ∨ m = 11 then 30 else 31

/-- The datetime is one that Python's `datetime` constructor accepts. -/
def PyDateTime.Valid (dt : PyDateTime) : Prop :=
  1 ≤ dt.year ∧ dt.year ≤ 9999 ∧ 1 ≤ dt.month ∧ dt.month ≤ 12 ∧
  1 ≤ dt.day ∧ dt.day ≤ daysInMonth dt.year dt.month ∧
  dt.hour ≤ 23 ∧ dt.minute ≤ 59 ∧ dt.second ≤ 59

instance (dt : PyDateTime) : Decidable dt.Valid := by
  unfold PyDateTime.Valid; infer_instance

/-- A date-format string built from the directives supported by
`_convert_date_format_to_regex` (`%Y %m %d %H %M %S`) and literal
separator characters, represented as a token list. -/
inductive FmtTok where
  | pY
  | pm
  | pd
  | pH
  | pM
  | pS
  | lit (c : Char)
deriving DecidableEq, Repr

def FmtTok.isLit : FmtTok → Bool
  | .lit _ => true
  | _ => false

/-- Characters special to Python `re`; a literal separator outside this set
matches itself, which is what the embedding's `matchRegex` assumes. -/
def regexSpecialChars : List Char :=
  ['.', '^', '$', '*', '+', '?', '(', ')', '[', ']', '\x7b', '\x7d', '|', '\\']

def FmtTok.litOK : FmtTok → Bool
  | .lit c => decide (c ≠ '%') && !c.isDigit && !(regexSpecialChars.contains c)
  | _ => true

/-- Well-formed format: literal separators are plain (non-directive,
non-digit, non-regex-special) characters, and each directive occurs at most
once (Python's `strptime` rejects repeated directives when compiling its
internal named-group regex). -/
def FmtWF (fmt : List FmtTok) : Prop :=
  (∀ t ∈ fmt, t.litOK = true) ∧ (fmt.filter (fun t => !t.isLit)).Nodup

instance (fmt : List FmtTok) : Decidable (FmtWF fmt) := by
  unfold FmtWF; infer_instance

def hasTok (fmt : List FmtTok) (t : FmtTok) : Bool :=
  fmt.any fun s => decide (s = t)

/-- The datetime `strptime` rebuilds when `fmt` mentions only some fields:
present fields keep their value, missing ones take Python's defaults
(1900-01-01 00:00:00). -/
def truncateTo (fmt : List FmtTok) (dt : PyDateTime) : PyDateTime where
  year := if hasTok fmt .pY then dt.year else 1900
  month := if hasTok fmt .pm then dt.month else 1
  day := if hasTok fmt .pd then dt.day else 1
  hour := if hasTok fmt .pH then dt.hour else 0
  minute := if hasTok fmt .pM then dt.minute else 0
  second := if hasTok fmt .pS then dt.second else 0

/-- A compiled pattern element: `\d{n}` or a literal character. -/
inductive RegexTok where
  | digits (n : Nat)
  | rlit (c : Char)
deriving DecidableEq, Repr

/-- `_convert_date_format_to_regex`: `%Y ↦ \d{4}`, the five two-digit
directives `↦ \d{2}`, anything else is kept literally. -/
def convertDateFormatToRegex (fmt : List FmtTok) : List RegexTok :=
  fmt.map fun t =>
    match t with
    | .pY => .digits 4
    | .pm => .digits 2
    | .pd => .digits 2
    | .pH => .digits 2
    | .pM => .digits 2
    | .pS => .digits 2
    | .lit c => .rlit c

/-- Match the fixed-width pattern at the head of `cs`, returning the
consumed characters (the capture group) and the remainder. The generated
patterns have no alternation, so Python's engine is deterministic here. -/
def matchRegex : List RegexTok → List Char → Option (List Char × List Char)
  | [], cs => some ([], cs)
  | .digits n :: ts, cs =>
    let pre := cs.take n
    if pre.length = n ∧ pre.all Char.isDigit then
      match matchRegex ts (cs.drop n) with
      | some (g, rest) => some (pre ++ g, rest)
      | none => none
    else none
  | .rlit c :: ts, cs =>
    match cs with
    | [] => none
    | c' :: cs' =>
      if c' = c then
        match matchRegex ts cs' with
        | some (g, rest) => some (c :: g, rest)
        | none => none
      else none

/-- Try the pattern `re.escape(prefix)(dateRegex)` at the current
position: the escaped prefix matches itself literally, then the date
pattern must match; on success return capture group 1. -/
def matchPrefixThen (pfxC : List Char) (pat : List RegexTok) (cs : List Char) :
    Option (List Char) :=
  if pfxC.isPrefixOf cs then
    match matchRegex pat (cs.drop pfxC.length) with
    | some (g, _) => some g
    | none => none
  else none

/-- `re.search`: try each position left to right (including the position
after the last character) and return the first capture. -/
def searchPattern (pfxC : List Char) (pat : List RegexTok) : List Char → Option (List Char)
  | [] => matchPrefixThen pfxC pat []
  | c :: cs =>
    match matchPrefixThen pfxC pat (c :: cs) with
    | some g => some g
    | none => searchPattern pfxC pat cs

/-- Value of a string of decimal digits (most significant first). -/
def digitsToNat (cs : List Char) : Nat :=
  cs.foldl (fun a c => a * 10 + (c.toNat - 48)) 0

/-- Exactly `w` decimal digits of `v`, zero-padded — what `strftime`
produces for `%Y` (w = 4) and the two-digit directives on in-range
values. -/
def padNum : Nat → Nat → List Char
  | 0, _ => []
  | w + 1, v => padNum w (v / 10) ++ [Char.ofNat (48 + v % 10)]

def renderTok (dt : PyDateTime) : FmtTok → List Char
  | .pY => padNum 4 dt.year
  | .pm => padNum 2 dt.month
  | .pd => padNum 2 dt.day
  | .pH => padNum 2 dt.hour
  | .pM => padNum 2 dt.minute
  | .pS => padNum 2 dt.second
  | .lit c => [c]

/-- `datetime.strftime` over the supported directives. -/
def strftime (dt : PyDateTime) : List FmtTok → List Char
  | [] => []
  | t :: ts => renderTok dt t ++ strftime dt ts

/-- Field values collected while parsing. -/
structure Fields where
  y : Option Nat
  m : Option Nat
  d : Option Nat
  hh : Option Nat
  mm : Option Nat
  ss : Option Nat
deriving DecidableEq, Repr

def Fields.empty : Fields := ⟨none, none, none, none, none, none⟩

/-- The field update a directive performs during parsing (the
specification of the accumulator threaded by `parseRun`). -/
def updField (dt : PyDateTime) (f : Fields) : FmtTok → Fields
  | .pY => { f with y := some dt.year }
  | .pm => { f with m := some dt.month }
  | .pd => { f with d := some dt.day }
  | .pH => { f with hh := some dt.hour }
  | .pM => { f with mm := some dt.minute }
  | .pS => { f with ss := some dt.second }
  | .lit _ => f

/-- The year-less date format `%m-%d`. -/
def fmtMD : List FmtTok := [.pm, .lit '-', .pd]

/-- One parsing step per token. `strptime`'s internal regex enforces the
field ranges shown (`%m` ~ `1[0-2]|0[1-9]|[1-9]`, …); the extracted
strings fed to `strptime` by `_extract_date_from_filename` always have
the exact widths 4/2 because they were captured by `\d{4}`/`\d{2}`, so
the fixed-width reading used here coincides with Python's behaviour on
every input this development evaluates. -/
def parseRun : List FmtTok → List Char → Fields → Option Fields
  | [], cs, f => if cs.isEmpty then some f else none
  | .pY :: ts, cs, f =>
    let pre := cs.take 4
    if pre.length = 4 ∧ pre.all Char.isDigit then
      parseRun ts (cs.drop 4) { f with y := some (digitsToNat pre) }
    else none
  | .pm :: ts, cs, f =>
    let pre := cs.take 2
    if pre.length = 2 ∧ pre.all Char.isDigit then
      let v := digitsToNat pre
      if 1 ≤ v ∧ v ≤ 12 then parseRun ts (cs.drop 2) { f with m := some v } else none
    else none
  | .pd :: ts, cs, f =>
    let pre := cs.take 2
    if pre.length = 2 ∧ pre.all Char.isDigit then
      let v := digitsToNat pre
      if 1 ≤ v ∧ v ≤ 31 then parseRun ts (cs.drop 2) { f with d := some v } else none
    else none
  | .pH :: ts, cs, f =>
    let pre := cs.take 2
    if pre.length = 2 ∧ pre.all Char.isDigit then
      let v := digitsToNat pre
      if v ≤ 23 then parseRun ts (cs.drop 2) { f with hh := some v } else none
    else none
  | .pM :: ts, cs, f =>
    let pre := cs.take 2
    if pre.length = 2 ∧ pre.all Char.isDigit then
      let v := digitsToNat pre
      if v ≤ 59 then parseRun ts (cs.drop 2) { f with mm := some v } else none
    else none
  | .pS :: ts, cs, f =>
    let pre := cs.take 2
    if pre.length = 2 ∧ pre.all Char.isDigit then
      let v := digitsToNat pre
      if v ≤ 59 then parseRun ts (cs.drop 2) { f with ss := some v } else none
    else none
  | .lit c :: ts, cs, f =>
    match cs with
    | [] => none
    | c' :: cs' => if c' = c then parseRun ts cs' f else none

/-- `datetime.strptime(date_str, date_format)`, with `ValueError`
(range violation, unconverted data, or an invalid day-of-month at
`datetime` construction with the 1900-01-01 defaults) modelled as
`none`. -/
def strptimeTok (cs : List Char) (fmt : List FmtTok) : Option PyDateTime :=
  match parseRun fmt cs Fields.empty with
  | none => none
  | some f =>
    let y := f.y.getD 1900
    let m := f.m.getD 1
    let d := f.d.getD 1
    if 1 ≤ y ∧ d ≤ daysInMonth y m then
      some ⟨y, m, d, f.hh.getD 0, f.mm.getD 0, f.ss.getD 0⟩
    else none

/-- `_extract_date_from_filename(filename, prefix, date_format)`:
search for `re.escape(prefix)(dateRegex)`, then `strptime` the capture;
any failure (no match, or `ValueError` caught at line 57) yields `None`. -/
def extractDateFromFilename (filename pfx : String) (fmt : List FmtTok) : Option PyDateTime :=
  match searchPattern pfx.data (convertDateFormatToRegex fmt) filename.data with
  | none => none
  | some g => strptimeTok g fmt

/-- The `for filename in existing_directories:` fold of `run` (lines
145–151): keep the first-encountered entry with the strictly smallest
parsed date; entries whose date does not parse are skipped. -/
def selectOldestAux (pfx : String) (fmt : List FmtTok) :
    Option (PyDateTime × String) → List String → Option (PyDateTime × String)
  | acc, [] => acc
  | acc, filename :: rest =>
    match extractDateFromFilename filename pfx fmt with
    | none => selectOldestAux pfx fmt acc rest
    | some date =>
      match acc with
      | none => selectOldestAux pfx fmt (some (date, filename)) rest
      | some (od, ofn) =>
        if date.key < od.key then selectOldestAux pfx fmt (some (date, filename)) rest
        else selectOldestAux pfx fmt (some (od, ofn)) rest

def selectOldest (pfx : String) (fmt : List FmtTok) (dirs : List String) :
    Option (PyDateTime × String) :=
  selectOldestAux pfx fmt none dirs

/-- Outcome of the retention loop. `ok` is the normal exit (count within
bound); `noCandidate` models the iteration in which `oldest_filename`
stays `None`: `os.path.join(backup_directory, None)` raises `TypeError`,
which the generic handler at line 164 logs and re-raises, aborting the
run. Both carry the surviving directories and the directories removed by
`shutil.rmtree`, in deletion order. -/
inductive RetentionResult where
  | ok (remaining deleted : List String)
  | noCandidate (remaining deleted : List String)
deriving DecidableEq, Repr

def RetentionResult.remaining : RetentionResult → List String
  | .ok r _ => r
  | .noCandidate r _ => r

def RetentionResult.deleted : RetentionResult → List String
  | .ok _ d => d
  | .noCandidate _ d => d

/-- The `while True:` retention loop of `run` (lines 115–167), with the
directory listing made explicit: each iteration re-lists the root, which
on a quiescent filesystem is the previous listing minus the entry just
removed (`List.erase`). The loop breaks when
`len(existing_directories) - 1 < archive_number`, i.e. (over ℤ) when
`dirs.length ≤ K`. Each non-breaking iteration removes one directory,
so `dirs.length` iterations always suffice; `fuel` is that bound, and
the `fuel = 0` branch coincides with the breaking branch (it is reached
only with `dirs = []`, where the loop would break anyway). -/
def retentionFuel (pfx : String) (fmt : List FmtTok) (K : Nat) :
    Nat → List String → RetentionResult
  | 0, dirs => .ok dirs []
  | fuel + 1, dirs =>
    if dirs.length ≤ K then .ok dirs []
    else
      match selectOldest pfx fmt dirs with
      | none => .noCandidate dirs []
      | some (_, f) =>
        match retentionFuel pfx fmt K fuel (dirs.erase f) with
        | .ok r del => .ok r (f :: del)
        | .noCandidate r del => .noCandidate r (f :: del)

/-- The retention pass on a listing `dirs` with `archive_number = K`. -/
def retentionLoop (pfx : String) (fmt : List FmtTok) (K : Nat) (dirs : List String) :
    RetentionResult :=
  retentionFuel pfx fmt K dirs.length dirs

/-- How many entries of `dirs` carry a strictly newer date than `d`
(dates read through `dts`). -/
def newerCount (dts : String → PyDateTime) (dirs : List String) (d : String) : Nat :=
  (dirs.filter fun e => decide ((dts d).key < (dts e).key)).length

/-- The date format `%Y-%m-%d` used throughout the concrete scenarios. -/
def fmtYMD : List FmtTok := [.pY, .lit '-', .pm, .lit '-', .pd]

/-- The archive listing of the spec's retention scenario, after the
current run has created `backup_2024-04-01` (creation happens at lines
84–109, before the retention loop, so the fresh directory is listed). -/
def scenarioDirs : List String :=
  ["backup_2024-01-01", "backup_2024-02-01", "backup_2024-03-01", "backup_2024-04-01"]

/-- The pipeline stage a failing attempt had reached when it raised —
the last value written to the item's `status` field inside
`backup_item` before the exception propagated. -/
inductive Stage where
  | backing
  | exporting
  | downloading
deriving DecidableEq, Repr

def Stage.toStatus : Stage → String
  | .backing => "BACKING"
  | .exporting => "EXPORTING"
  | .downloading => "DOWNLOADING"

/-- Outcome of one `backup_item(item)` call: either it returns (the item
was downloaded), or it raises with the status field left at some
in-flight stage. -/
inductive Attempt where
  | success
  | failure (s : Stage)
deriving DecidableEq, Repr

def Attempt.isFailure : Attempt → Bool
  | .success => false
  | .failure _ => true

def failStatus : Attempt → Option String
  | .success => none
  | .failure s => some s.toStatus

/-- The ledger fields of `backup_log['items'][id]` that the claims are
about. At seeding (lines 192–203) `status = None`, `success = False`,
`retries = 0`. -/
structure ItemRec where
  status : Option String
  success : Bool
  retries : Nat
deriving DecidableEq, Repr

def initLedger : Nat → ItemRec := fun _ => ⟨none, false, 0⟩

def upd (L : Nat → ItemRec) (i : Nat) (rec : ItemRec) : Nat → ItemRec :=
  fun j => if j = i then rec else L j

/-- Observable engine events. A `time.sleep` in the worker loop would
emit `sleep`; the source contains no sleep call, so no constructor of the
trace ever is `sleep`. -/
inductive QEvent where
  | attempt (id idx : Nat)
  | sleep (seconds : Nat)
deriving DecidableEq, Repr

def QEvent.isSleep : QEvent → Bool
  | .sleep _ => true
  | _ => false

/-- Termination measure of the retry loop: an item queued with counter
`r < maxR` can be attempted at most `maxR - r` more times. -/
def measureQ (maxR : Nat) : List (Nat × Nat) → Nat
  | [] => 0
  | p :: q => (maxR - min p.2 maxR + 1) + measureQ maxR q

/-- The `while not request_queue.empty():` loop of `run` (lines
294–311). The queue holds `[item, retries]` pairs (here: item id ×
retry counter). With counter `< max_retries` the item is attempted via
`backup_item`: on success the ledger gets `success = True`,
`status = 'COMPLETE'`; on an exception the counter and the ledger's
`retries` are incremented, `status` stays at the stage reached, and the
pair is re-enqueued at the back. With the counter at `max_retries` the
dequeued item is silently dropped (the `if` has no `else`). The
behaviour oracle `beh i r` gives the outcome of item `i`'s attempt
number `r`. (`if item is None: break` is dead code: `None` is never
enqueued.) Every iteration strictly decreases `measureQ`, so
`measureQ + 1` fuel always suffices; the `fuel = 0` branch is
unreachable from `drain` below. -/
def drainFuel (beh : Nat → Nat → Attempt) (maxR : Nat) :
    Nat → List (Nat × Nat) → (Nat → ItemRec) → List QEvent →
      ((Nat → ItemRec) × List QEvent)
  | _, [], L, tr => (L, tr)
  | 0, _ :: _, L, tr => (L, tr)
  | fuel + 1, (i, r) :: q, L, tr =>
    if r < maxR then
      match beh i r with
      | .success =>
        drainFuel beh maxR fuel q
          (upd L i { status := some "COMPLETE", success := true, retries := (L i).retries })
          (tr ++ [QEvent.attempt i r])
      | .failure s =>
        drainFuel beh maxR fuel (q ++ [(i, r + 1)])
          (upd L i { status := some s.toStatus, success := (L i).success,
                     retries := (L i).retries + 1 })
          (tr ++ [QEvent.attempt i r])
    else drainFuel beh maxR fuel q L tr

/-- The retry queue run to completion from a starting queue and ledger;
returns the final ledger and the trace of processed attempts. -/
def drain (beh : Nat → Nat → Attempt) (maxR : Nat) (q : List (Nat × Nat))
    (L : Nat → ItemRec) : (Nat → ItemRec) × List QEvent :=
  drainFuel beh maxR (measureQ maxR q + 1) q L []

/-- First attempt index `< bound` (counting from `start`) whose outcome
is a success. -/
def firstSuccAux (b : Nat → Attempt) : Nat → Nat → Option Nat
  | 0, _ => none
  | n + 1, k => if (b k).isFailure then firstSuccAux b n (k + 1) else some k

def firstSuccIdx (b : Nat → Attempt) (maxR : Nat) : Option Nat :=
  firstSuccAux b maxR 0

/-- Ledger record of an item whose first `r` attempts all failed. -/
def recAfterFails (b : Nat → Attempt) (r : Nat) : ItemRec where
  status := if r = 0 then none else failStatus (b (r - 1))
  success := false
  retries := r

/-- The final ledger record of a seeded item: `COMPLETE` at the first
successful attempt (if any occurs before the retry bound), otherwise the
record left by `maxR` straight failures. -/
def itemFinal (b : Nat → Attempt) (maxR : Nat) : ItemRec :=
  match firstSuccIdx b maxR with
  | some k => { status := some "COMPLETE", success := true, retries := k }
  | none => recAfterFails b maxR

/-- The `for key, value in backup_log['items'].items():` aggregation
(lines 325–331): break with `False` at the first non-successful item,
otherwise set `True` each iteration; with no items the initial `None`
survives. -/
def overallLoop (L : Nat → ItemRec) : Option Bool → List Nat → Option Bool
  | acc, [] => acc
  | _, i :: rest =>
    if (L i).success then overallLoop L (some true) rest else some false

def computeOverall (L : Nat → ItemRec) (ids : List Nat) : Option Bool :=
  overallLoop L none ids

/-- A Content-Provider search result (`{id, title, type, tags}`). -/
structure ProvItem where
  id : Nat
  title : String
  ty : String
  tags : List String

/-- The item filter of `run` (lines 177–179):
`item.type not in backup_exclude_types and
 (re.search(existing_backup_pattern, item.title) is None and ignore_existing)`.
The regex test on the title is abstracted into the oracle `hasMark`. -/
def filteredItems (items : List ProvItem) (excl : List String)
    (hasMark : ProvItem → Bool) (ig : Bool) : List ProvItem :=
  items.filter fun it => !(excl.contains it.ty) && (!(hasMark it) && ig)

/-- Exception raised by one `os.makedirs` call, as seen by the handlers
at lines 100–109. -/
inductive MkdirExc where
  | permissionError
  | fileExistsError
  | otherError
deriving DecidableEq, Repr

/-- Filesystem responses for the creation phase: the outcome of creating
the base directory and of creating each tag subdirectory. -/
structure CreateEnv where
  baseResult : Option MkdirExc
  subResult : String → Option MkdirExc

def firstTagError (sub : String → Option MkdirExc) : List String → Option MkdirExc
  | [] => none
  | t :: ts =>
    match sub t with
    | some e => some e
    | none => firstTagError sub ts

/-- The first exception raised inside the `try:` block of lines 84–98
(base directory first, then each tag subdirectory in order). -/
def firstCreationError (tags : List String) (env : CreateEnv) : Option MkdirExc :=
  match env.baseResult with
  | some e => some e
  | none => firstTagError env.subResult tags

inductive CreatePhaseResult where
  | continued
  | raisedFileExists
deriving DecidableEq, Repr

/-- Exception dispatch of lines 100–109: `PermissionError` is logged and
execution continues; `FileExistsError` is re-raised; any other exception
is logged and execution continues. -/
def createPhase (tags : List String) (env : CreateEnv) : CreatePhaseResult :=
  match firstCreationError tags env with
  | some MkdirExc.fileExistsError => CreatePhaseResult.raisedFileExists
  | _ => CreatePhaseResult.continued

/-- Whether `full_directory_path` exists after the creation phase: the
`os.makedirs` at line 86 created it iff it did not raise. (If it raised
`FileExistsError` the path does exist, but that exception is re-raised
and the run never proceeds, so the `false` value is never observed.)
Tag-subdirectory failures do not affect this: the base directory was
already created before the subdirectory loop ran. -/
def baseDirCreated (env : CreateEnv) : Bool :=
  match env.baseResult with
  | none => true
  | some _ => false

/-- The inputs of one `run(...)` call, with all filesystem/network
effects made explicit. -/
structure RunEnv where
  directoryTags : List String
  createEnv : CreateEnv
  pfx : String
  fmt : List FmtTok
  archiveNumber : Nat
  dirs : List String
  items : List ProvItem
  excludeTypes : List String
  hasMark : ProvItem → Bool
  ignoreExisting : Bool
  beh : Nat → Nat → Attempt
  maxRetries : Nat

/-- How a `run` invocation ends. `abortedCreation`: the re-raised
`FileExistsError`; `abortedRetention`: the re-raised exception from the
retention loop's `TypeError` on `oldest_filename = None`;
`abortedPersist`: the uncaught `FileNotFoundError` from
`_save_json_log` at line 182 opening a file inside the run directory
that the failed `os.makedirs` never created; `abortedNoItems`: the
`exit()` at line 190; `finished`: normal completion carrying the
persisted `info.success` flag. The retention survivors and deletions
are carried so later phases' outcomes record what the retention pass
did. -/
inductive RunOutcome where
  | abortedCreation
  | abortedRetention (remaining deleted : List String)
  | abortedPersist (remaining deleted : List String)
  | abortedNoItems (remaining deleted : List String)
  | finished (overall : Option Bool) (remaining deleted : List String)
deriving DecidableEq, Repr

set_option linter.unusedVariables false in
/-- The control flow of `run` (lines 72–337): creation phase, retention
loop, search + filter, the `_save_json_log` persist at line 182 (which
raises an uncaught `FileNotFoundError` when the run directory was never
created because the base `os.makedirs` failed and its exception was
swallowed), zero-items abort, seeding, retry queue, final `success`
aggregation. `exportDelay` mirrors the `export_delay=2` parameter of
the source signature; the source body never reads it. -/
def runModel (env : RunEnv) (exportDelay : Nat) : RunOutcome :=
  match createPhase env.directoryTags env.createEnv with
  | .raisedFileExists => .abortedCreation
  | .continued =>
    match retentionLoop env.pfx env.fmt env.archiveNumber env.dirs with
    | .noCandidate rem del => .abortedRetention rem del
    | .ok rem del =>
      let fitems := filteredItems env.items env.excludeTypes env.hasMark env.ignoreExisting
      if baseDirCreated env.createEnv then
        if fitems.length = 0 then .abortedNoItems rem del
        else
          let ids := fitems.map (fun it => it.id)
          let final := drain env.beh env.maxRetries (ids.map fun j => (j, 0)) initLedger
          .finished (computeOverall final.1 ids) rem del
      else .abortedPersist rem del

/-- The dates embedded in the scenario listing, read off through the
extractor itself. -/
def dtsScenario : String → PyDateTime := fun n =>
  (extractDateFromFilename n "backup_" fmtYMD).getD ⟨0, 0, 0, 0, 0, 0⟩

/-- A run input for exercising the queue engine: two ordinary items,
everything else benign (no creation errors, retention within bound). -/
def envC5 : RunEnv where
  directoryTags := ["maps"]
  createEnv := ⟨none, fun _ => none⟩
  pfx := "backup_"
  fmt := fmtYMD
  archiveNumber := 3
  dirs := []
  items := [⟨0, "roads", "Feature Service", ["maps"]⟩, ⟨1, "sites", "Web Map", ["maps"]⟩]
  excludeTypes := []
  hasMark := fun _ => false
  ignoreExisting := true
  beh := fun _ _ => Attempt.success
  maxRetries := 5

/-- A run input whose base `os.makedirs` (line 86) raises
`PermissionError`, with an over-limit archive: the exception is
swallowed, retention still runs, and the run then dies at the line-182
persist into the never-created directory. -/
def envC6 : RunEnv where
  directoryTags := ["maps"]
  createEnv := ⟨some MkdirExc.permissionError, fun _ => none⟩
  pfx := "backup_"
  fmt := fmtYMD
  archiveNumber := 1
  dirs := ["backup_2024-01-01", "backup_2024-03-01"]
  items := [⟨7, "roads", "Web Map", ["maps"]⟩]
  excludeTypes := []
  hasMark := fun _ => false
  ignoreExisting := true
  beh := fun _ _ => Attempt.success
  maxRetries := 1

/-- A run input identical to `envC6` except that the base directory is
created fine and only the tag-subdirectory `os.makedirs` (line 93)
raises `PermissionError`: the base directory exists, so the line-182
persist succeeds and the run proceeds through the whole backup phase. -/
def envC6sub : RunEnv where
  directoryTags := ["maps"]
  createEnv := ⟨none, fun _ => some MkdirExc.permissionError⟩
  pfx := "backup_"
  fmt := fmtYMD
  archiveNumber := 1
  dirs := ["backup_2024-01-01", "backup_2024-03-01"]
  items := [⟨7, "roads", "Web Map", ["maps"]⟩]
  excludeTypes := []
  hasMark := fun _ => false
  ignoreExisting := true
  beh := fun _ _ => Attempt.success
  maxRetries := 1

/-- A run input whose archive root is over the limit but holds only
entries without a parseable date. -/
def envC3 : RunEnv where
  directoryTags := []
  createEnv := ⟨none, fun _ => none⟩
  pfx := "backup_"
  fmt := fmtYMD
  archiveNumber := 1
  dirs := ["alpha", "beta"]
  items := [⟨0, "roads", "Web Map", []⟩]
  excludeTypes := []
  hasMark := fun _ => false
  ignoreExisting := true
  beh := fun _ _ => Attempt.success
  maxRetries := 1

/-- A run input with `ignore_existing = False` and plenty of matching
items. -/
def envC9 : RunEnv where
  directoryTags := []
  createEnv := ⟨none, fun _ => none⟩
  pfx := "backup_"
  fmt := fmtYMD
  archiveNumber := 3
  dirs := []
  items := [⟨0, "roads", "Feature Service", []⟩, ⟨1, "sites", "Web Map", []⟩]
  excludeTypes := []
  hasMark := fun _ => false
  ignoreExisting := false
  beh := fun _ _ => Attempt.success
  maxRetries := 5

/-! ## Queue-engine lemmas -/

theorem measureQ_append (maxR : Nat) (q : List (Nat × Nat)) (p : Nat × Nat) :
    measureQ maxR (q ++ [p]) = measureQ maxR q + (maxR - min p.2 maxR + 1) := by
  induction q with
  | nil => simp [measureQ]
  | cons a q ih => simp [measureQ, ih]; omega

/-- Items absent from the queue keep their ledger record. -/
theorem drainFuel_frame (beh : Nat → Nat → Attempt) (maxR : Nat) :
    ∀ fuel q (L : Nat → ItemRec) tr i, i ∉ q.map Prod.fst →
      (drainFuel beh maxR fuel q L tr).1 i = L i := by
  intro fuel
  induction fuel with
  | zero =>
    intro q L tr i hi
    cases q <;> simp [drainFuel]
  | succ fuel ih =>
    intro q L tr i hi
    match q with
    | [] => simp [drainFuel]
    | (j, s) :: q' =>
      simp only [List.map_cons, List.mem_cons] at hi
      push_neg at hi
      obtain ⟨hij, hiq⟩ := hi
      rw [drainFuel]
      by_cases hs : s < maxR
      · rw [if_pos hs]
        cases hbeh : beh j s with
        | success =>
          rw [ih _ _ _ _ hiq]
          simp [upd, hij]
        | failure st =>
          rw [ih]
          · simp [upd, hij]
          · simp [List.map_append, hij, hiq]
      · rw [if_neg hs]
        exact ih _ _ _ _ hiq

/-- Every event the loop appends to the trace is an attempt made with a
retry counter strictly below `max_retries` (and in particular is never a
`sleep`). -/
theorem drainFuel_trace (beh : Nat → Nat → Attempt) (maxR : Nat) :
    ∀ fuel q (L : Nat → ItemRec) tr e, e ∈ (drainFuel beh maxR fuel q L tr).2 →
      e ∈ tr ∨ ∃ i r, e = QEvent.attempt i r ∧ r < maxR := by
  intro fuel
  induction fuel with
  | zero =>
    intro q L tr e he
    cases q <;> simp [drainFuel] at he <;> exact Or.inl he
  | succ fuel ih =>
    intro q L tr e he
    match q with
    | [] =>
      simp [drainFuel] at he
      exact Or.inl he
    | (j, s) :: q' =>
      rw [drainFuel] at he
      by_cases hs : s < maxR
      · rw [if_pos hs] at he
        cases hbeh : beh j s with
        | success =>
          rw [hbeh] at he
          rcases ih _ _ _ _ he with h | h
          · rcases List.mem_append.1 h with h' | h'
            · exact Or.inl h'
            · simp at h'
              exact Or.inr ⟨j, s, h', hs⟩
          · exact Or.inr h
        | failure st =>
          rw [hbeh] at he
          rcases ih _ _ _ _ he with h | h
          · rcases List.mem_append.1 h with h' | h'
            · exact Or.inl h'
            · simp at h'
              exact Or.inr ⟨j, s, h', hs⟩
          · exact Or.inr h
      · rw [if_neg hs] at he
        exact ih _ _ _ _ he

theorem firstSuccAux_none (b : Nat → Attempt) :
    ∀ n k, (∀ j, k ≤ j → j < k + n → (b j).isFailure = true) →
      firstSuccAux b n k = none := by
  intro n
  induction n with
  | zero => intro k _; rfl
  | succ n ih =>
    intro k h
    rw [firstSuccAux, if_pos (h k le_rfl (by omega))]
    exact ih (k + 1) fun j h1 h2 => h j (by omega) (by omega)

theorem firstSuccAux_some (b : Nat → Attempt) :
    ∀ n k r, k ≤ r → r < k + n → (∀ j, k ≤ j → j < r → (b j).isFailure = true) →
      (b r).isFailure = false → firstSuccAux b n k = some r := by
  intro n
  induction n with
  | zero => intro k r h1 h2; omega
  | succ n ih =>
    intro k r h1 h2 hfail hsucc
    rw [firstSuccAux]
    by_cases hk : k = r
    · subst hk
      rw [hsucc]
      simp
    · rw [if_pos (hfail k le_rfl (by omega))]
      exact ih (k + 1) r (by omega) (by omega)
        (fun j ha hb => hfail j (by omega) hb) hsucc

/-- Characterization of a seeded item's final ledger record: the loop
state is a queue in which each pending item appears once with its
current retry count, its ledger record reflecting that many straight
failures. -/
theorem drainFuel_item (beh : Nat → Nat → Attempt) (maxR : Nat) :
    ∀ fuel q (L : Nat → ItemRec) tr i r,
      measureQ maxR q < fuel →
      (q.map Prod.fst).Nodup →
      (i, r) ∈ q →
      r ≤ maxR →
      (∀ k, k < r → (beh i k).isFailure = true) →
      L i = recAfterFails (beh i) r →
      (drainFuel beh maxR fuel q L tr).1 i = itemFinal (beh i) maxR := by
  intro fuel
  induction fuel with
  | zero => intro q L tr i r hf; omega
  | succ fuel ih =>
    intro q L tr i r hf hnd hmem hr hkfail hLi
    match q with
    | [] => cases hmem
    | (j, s) :: q' =>
      rw [drainFuel]
      have hwpos : 1 ≤ maxR - min s maxR + 1 := by omega
      rw [measureQ] at hf
      by_cases hij : j = i
      · subst hij
        have hjq' : j ∉ q'.map Prod.fst := by
          simpa using (List.nodup_cons.1 hnd).1
        have hsr : s = r := by
          rcases List.mem_cons.1 hmem with h | h
          · simp only [Prod.mk.injEq] at h
            exact h.2.symm
          · exact absurd (List.mem_map_of_mem Prod.fst h) hjq'
        subst hsr
        by_cases hs : s < maxR
        · rw [if_pos hs]
          cases hbeh : beh j s with
          | success =>
            rw [drainFuel_frame beh maxR _ _ _ _ _ hjq']
            have hfs : firstSuccIdx (beh j) maxR = some s :=
              firstSuccAux_some (beh j) maxR 0 s (Nat.zero_le _) (by omega)
                (fun k _ hk => hkfail k hk) (by rw [hbeh]; rfl)
            simp [itemFinal, hfs, upd, hLi, recAfterFails]
          | failure st =>
            refine ih (q' ++ [(j, s + 1)]) _ _ j (s + 1) ?_ ?_ ?_ (by omega) ?_ ?_
            · rw [measureQ_append]
              omega
            · rw [List.map_append, List.nodup_append]
              refine ⟨(List.nodup_cons.1 hnd).2, by simp, ?_⟩
              intro a ha
              simp only [List.map_cons, List.map_nil, List.mem_singleton]
              intro hcon
              subst hcon
              exact hjq' ha
            · simp
            · intro k hk
              rcases Nat.lt_succ_iff_lt_or_eq.1 hk with h | h
              · exact hkfail k h
              · subst h; rw [hbeh]; rfl
            · simp only [upd, if_pos rfl, hLi, recAfterFails]
              simp [hbeh, failStatus]
        · rw [if_neg hs]
          have hsmax : s = maxR := by omega
          rw [drainFuel_frame beh maxR _ _ _ _ _ hjq', hLi, hsmax]
          have hfs : firstSuccIdx (beh j) maxR = none :=
            firstSuccAux_none (beh j) maxR 0 fun k _ hk => hkfail k (by omega)
          simp [itemFinal, hfs]
      · have hmem' : (i, r) ∈ q' := by
          rcases List.mem_cons.1 hmem with h | h
          · cases h; exact absurd rfl hij
          · exact h
        have hndq' : (q'.map Prod.fst).Nodup := (List.nodup_cons.1 hnd).2
        have hjq' : j ∉ q'.map Prod.fst := by
          simpa using (List.nodup_cons.1 hnd).1
        by_cases hs : s < maxR
        · rw [if_pos hs]
          cases hbeh : beh j s with
          | success =>
            refine ih q' _ _ i r (by omega) hndq' hmem' hr hkfail ?_
            simp [upd, Ne.symm hij, hLi]
          | failure st =>
            refine ih (q' ++ [(j, s + 1)]) _ _ i r ?_ ?_ ?_ hr hkfail ?_
            · rw [measureQ_append]; omega
            · rw [List.map_append, List.nodup_append]
              refine ⟨hndq', by simp, ?_⟩
              intro a ha
              simp only [List.map_cons, List.map_nil, List.mem_singleton]
              intro hcon
              subst hcon
              exact hjq' ha
            · exact List.mem_append_left _ hmem'
            · simp [upd, Ne.symm hij, hLi]
        · rw [if_neg hs]
          exact ih q' _ _ i r (by omega) hndq' hmem' hr hkfail hLi

/-- Final ledger record of each seeded item after the queue drains. -/
theorem drain_final (beh : Nat → Nat → Attempt) (maxR : Nat) (ids : List Nat)
    (hnd : ids.Nodup) (i : Nat) (hmem : i ∈ ids) :
    (drain beh maxR (ids.map fun j => (j, 0)) initLedger).1 i =
      itemFinal (beh i) maxR := by
  refine drainFuel_item beh maxR _ _ _ _ i 0 (by omega) ?_ ?_ (Nat.zero_le _)
    (by omega) rfl
  · have heq : (ids.map fun j => (j, 0)).map Prod.fst = ids := by
      rw [List.map_map]
      exact List.map_id ids
    rw [heq]
    exact hnd
  · exact List.mem_map_of_mem (fun j => (j, 0)) hmem

theorem overallLoop_true_iff (L : Nat → ItemRec) :
    ∀ l (acc : Option Bool), l ≠ [] →
      (overallLoop L acc l = some true ↔ ∀ i ∈ l, (L i).success = true) := by
  intro l
  induction l with
  | nil => intro acc h; exact absurd rfl h
  | cons i rest ih =>
    intro acc _
    by_cases hi : (L i).success
    · rw [overallLoop, if_pos hi]
      cases rest with
      | nil => simp [overallLoop, hi]
      | cons j rest' =>
        rw [ih (some true) (by simp)]
        simp [hi]
    · rw [overallLoop, if_neg hi]
      constructor
      · intro h
        exact absurd h (by decide)
      · intro h
        exact absurd (h i (List.mem_cons_self i rest)) hi

/-- In a final record, the `success` flag is `True` exactly when the
`status` field reads `'COMPLETE'`. -/
theorem itemFinal_success_iff (b : Nat → Attempt) (maxR : Nat) :
    (itemFinal b maxR).success = true ↔ (itemFinal b maxR).status = some "COMPLETE" := by
  unfold itemFinal
  cases hfs : firstSuccIdx b maxR with
  | some k => simp
  | none =>
    simp only [recAfterFails]
    constructor
    · intro h
      exact absurd h (by decide)
    · intro h
      by_cases hm : maxR = 0
      · rw [if_pos hm] at h
        cases h
      · rw [if_neg hm] at h
        cases hb : b (maxR - 1) with
        | success => rw [hb] at h; cases h
        | failure s =>
          rw [hb] at h
          cases s <;> simp [failStatus, Stage.toStatus] at h

/-- Claim C7: an item that fails each of its first `maxRetries - 1`
attempts and succeeds on the last is marked `COMPLETE` with `retries =
maxRetries - 1`, whatever the other queued items do. -/
theorem c7_success_on_last_attempt (beh : Nat → Nat → Attempt) (maxR : Nat)
    (ids : List Nat) (i : Nat) (hnd : ids.Nodup) (hmem : i ∈ ids) (h1 : 1 ≤ maxR)
    (hfail : ∀ k, k < maxR - 1 → (beh i k).isFailure = true)
    (hsucc : beh i (maxR - 1) = Attempt.success) :
    (drain beh maxR (ids.map fun j => (j, 0)) initLedger).1 i =
      { status := some "COMPLETE", success := true, retries := maxR - 1 } := by
  rw [drain_final beh maxR ids hnd i hmem]
  have hfs : firstSuccIdx (beh i) maxR = some (maxR - 1) :=
    firstSuccAux_some (beh i) maxR 0 (maxR - 1) (Nat.zero_le _) (by omega)
      (fun j _ hj => hfail j hj) (by rw [hsucc]; rfl)
  simp [itemFinal, hfs]

/-- Witness for C7: two seeded items; item 0 fails its first attempt
and succeeds on the second of `maxRetries = 2`. -/
theorem c7_success_on_last_attempt_witness :
    (drain (fun _ k => if k = 0 then Attempt.failure Stage.backing else Attempt.success)
        2 ([0, 1].map fun j => (j, 0)) initLedger).1 0 =
      { status := some "COMPLETE", success := true, retries := 1 } := by
  have h := c7_success_on_last_attempt
    (fun _ k => if k = 0 then Attempt.failure Stage.backing else Attempt.success)
    2 [0, 1] 0 (by decide) (by decide) (by decide)
    (fun k hk => by
      have hk0 : k = 0 := by omega
      subst hk0
      rfl)
    (by rfl)
  simpa using h

/-- Claim C2 (counterexample): with `max_retries = 2`, an item whose
attempts all raise while its status is `'BACKING'` is dropped with
status still `'BACKING'` — the engine never writes `'FAILED'`. -/
theorem c2_failed_marking_cex :
    ((drain (fun _ _ => Attempt.failure Stage.backing) 2 [(0, 0)] initLedger).1 0).status
        = some "BACKING" ∧
      (some "BACKING" : Option String) ≠ some "FAILED" := by decide

/-- Claim C2 (amended): an item that fails `maxRetries` straight times
keeps `success = False`, has `retries = maxRetries`, retains the status
of its last in-flight stage (never `'FAILED'`), is attempted only with
retry counters below `maxRetries` (so never reprocessed once exhausted),
and the drain still terminates with this final ledger. -/
theorem c2_exhausted_item_dropped (beh : Nat → Nat → Attempt) (maxR : Nat)
    (ids : List Nat) (i : Nat) (hnd : ids.Nodup) (hmem : i ∈ ids) (h1 : 1 ≤ maxR)
    (hfail : ∀ k, k < maxR → (beh i k).isFailure = true) :
    ((drain beh maxR (ids.map fun j => (j, 0)) initLedger).1 i).success = false ∧
    ((drain beh maxR (ids.map fun j => (j, 0)) initLedger).1 i).retries = maxR ∧
    ((drain beh maxR (ids.map fun j => (j, 0)) initLedger).1 i).status =
      failStatus (beh i (maxR - 1)) ∧
    ((drain beh maxR (ids.map fun j => (j, 0)) initLedger).1 i).status ≠ some "FAILED" ∧
    (∀ j k, QEvent.attempt j k ∈ (drain beh maxR (ids.map fun j => (j, 0)) initLedger).2 →
      k < maxR) := by
  have hfs : firstSuccIdx (beh i) maxR = none :=
    firstSuccAux_none (beh i) maxR 0 fun k _ hk => hfail k (by omega)
  have hfin : (drain beh maxR (ids.map fun j => (j, 0)) initLedger).1 i =
      recAfterFails (beh i) maxR := by
    rw [drain_final beh maxR ids hnd i hmem]
    simp [itemFinal, hfs]
  refine ⟨by rw [hfin]; rfl, by rw [hfin]; rfl, ?_, ?_, ?_⟩
  · rw [hfin]
    simp only [recAfterFails]
    rw [if_neg (by omega : maxR ≠ 0)]
  · rw [hfin]
    have hlast := hfail (maxR - 1) (by omega)
    simp only [recAfterFails]
    rw [if_neg (by omega : maxR ≠ 0)]
    cases hb : beh i (maxR - 1) with
    | success => rw [hb] at hlast; cases hlast
    | failure s => cases s <;> simp [failStatus, Stage.toStatus]
  · intro j k hk
    rcases drainFuel_trace beh maxR _ _ _ _ _ hk with h | ⟨i', r', heq, hlt⟩
    · cases h
    · cases heq
      exact hlt

/-- Witness for C2 (amended): one always-failing item with
`maxRetries = 2`. -/
theorem c2_exhausted_item_dropped_witness :
    ((drain (fun _ _ => Attempt.failure Stage.downloading) 2 ([0].map fun j => (j, 0))
        initLedger).1 0).success = false ∧
    ((drain (fun _ _ => Attempt.failure Stage.downloading) 2 ([0].map fun j => (j, 0))
        initLedger).1 0).retries = 2 ∧
    ((drain (fun _ _ => Attempt.failure Stage.downloading) 2 ([0].map fun j => (j, 0))
        initLedger).1 0).status =
      failStatus ((fun _ _ => Attempt.failure Stage.downloading) 0 1) ∧
    ((drain (fun _ _ => Attempt.failure Stage.downloading) 2 ([0].map fun j => (j, 0))
        initLedger).1 0).status ≠ some "FAILED" ∧
    (∀ j k, QEvent.attempt j k ∈
        (drain (fun _ _ => Attempt.failure Stage.downloading) 2 ([0].map fun j => (j, 0))
          initLedger).2 → k < 2) :=
  c2_exhausted_item_dropped (fun _ _ => Attempt.failure Stage.downloading) 2 [0] 0
    (by decide) (by decide) (by decide) (fun k _ => rfl)

/-- Claim C8: the persisted `info.success` flag is `True` iff every
seeded item finished with status `'COMPLETE'` (equivalently, per-item
`success = True`). The non-emptiness hypothesis reflects that a run
reaching the aggregation always has items (`exit()` fires otherwise). -/
theorem c8_overall_success_iff (beh : Nat → Nat → Attempt) (maxR : Nat)
    (ids : List Nat) (hnd : ids.Nodup) (hne : ids ≠ []) :
    computeOverall (drain beh maxR (ids.map fun j => (j, 0)) initLedger).1 ids = some true ↔
      ∀ i ∈ ids,
        ((drain beh maxR (ids.map fun j => (j, 0)) initLedger).1 i).status =
          some "COMPLETE" := by
  rw [computeOverall, overallLoop_true_iff _ ids none hne]
  constructor
  · intro h i hi
    have hx := h i hi
    rw [drain_final beh maxR ids hnd i hi] at hx ⊢
    exact (itemFinal_success_iff _ _).1 hx
  · intro h i hi
    have hx := h i hi
    rw [drain_final beh maxR ids hnd i hi] at hx ⊢
    exact (itemFinal_success_iff _ _).2 hx

/-- Witness for C8: two items, the second failing out; the aggregation
reads `some false`, matching the equivalence. -/
theorem c8_overall_success_iff_witness :
    computeOverall (drain (fun i _ => if i = 0 then Attempt.success else
        Attempt.failure Stage.backing) 2 ([0, 1].map fun j => (j, 0)) initLedger).1
        [0, 1] = some true ↔
      ∀ i ∈ [0, 1],
        ((drain (fun i _ => if i = 0 then Attempt.success else
            Attempt.failure Stage.backing) 2 ([0, 1].map fun j => (j, 0)) initLedger).1
          i).status = some "COMPLETE" :=
  c8_overall_success_iff _ 2 [0, 1] (by decide) (by decide)

/-- Claim C5 (code defect): the engine's behaviour is completely
independent of the `export_delay` argument — the source signature takes
it (line 72) but the body never reads it — and the drain trace contains
no sleep events at all, so no delay is awaited between consecutive
items. -/
theorem c5_export_delay_unused :
    (∀ d d' : Nat, runModel envC5 d = runModel envC5 d') ∧
    ((drain envC5.beh envC5.maxRetries [(0, 0), (1, 0)] initLedger).2.all
        fun e => !e.isSleep) = true := by
  exact ⟨fun d d' => rfl, by decide⟩

/-! ## Retention lemmas -/

/-- A result of the oldest-entry fold is either the unchanged
accumulator or a member of the listing whose date parsed to the returned
value. -/
theorem selectOldestAux_eq_acc_or (pfx : String) (fmt : List FmtTok) :
    ∀ (dirs : List String) acc d f, selectOldestAux pfx fmt acc dirs = some (d, f) →
      acc = some (d, f) ∨ (f ∈ dirs ∧ extractDateFromFilename f pfx fmt = some d) := by
  intro dirs
  induction dirs with
  | nil => intro acc d f h; exact Or.inl h
  | cons fn rest ih =>
    intro acc d f h
    cases hext : extractDateFromFilename fn pfx fmt with
    | none =>
      simp only [selectOldestAux, hext] at h
      rcases ih acc d f h with h' | ⟨hm, he⟩
      · exact Or.inl h'
      · exact Or.inr ⟨List.mem_cons_of_mem fn hm, he⟩
    | some date =>
      cases acc with
      | none =>
        simp only [selectOldestAux, hext] at h
        rcases ih _ d f h with h' | ⟨hm, he⟩
        · simp only [Option.some.injEq, Prod.mk.injEq] at h'
          obtain ⟨h1, h2⟩ := h'
          subst h1
          subst h2
          exact Or.inr ⟨List.mem_cons_self _ _, hext⟩
        · exact Or.inr ⟨List.mem_cons_of_mem fn hm, he⟩
      | some acc' =>
        obtain ⟨od, ofn⟩ := acc'
        simp only [selectOldestAux, hext] at h
        by_cases hlt : date.key < od.key
        · rw [if_pos hlt] at h
          rcases ih _ d f h with h' | ⟨hm, he⟩
          · simp only [Option.some.injEq, Prod.mk.injEq] at h'
            obtain ⟨h1, h2⟩ := h'
            subst h1
            subst h2
            exact Or.inr ⟨List.mem_cons_self _ _, hext⟩
          · exact Or.inr ⟨List.mem_cons_of_mem fn hm, he⟩
        · rw [if_neg hlt] at h
          rcases ih _ d f h with h' | ⟨hm, he⟩
          · exact Or.inl h'
          · exact Or.inr ⟨List.mem_cons_of_mem fn hm, he⟩

/-- The fold's result key is a lower bound of every parseable entry's
key and of the starting accumulator's key. -/
theorem selectOldestAux_min (pfx : String) (fmt : List FmtTok) :
    ∀ (dirs : List String) acc d f, selectOldestAux pfx fmt acc dirs = some (d, f) →
      (∀ e ∈ dirs, ∀ de, extractDateFromFilename e pfx fmt = some de →
        d.key ≤ de.key) ∧
      (∀ d0 f0, acc = some (d0, f0) → d.key ≤ d0.key) := by
  intro dirs
  induction dirs with
  | nil =>
    intro acc d f h
    refine ⟨by simp, fun d0 f0 h0 => ?_⟩
    rw [h0] at h
    simp only [selectOldestAux, Option.some.injEq, Prod.mk.injEq] at h
    simp [h.1]
  | cons fn rest ih =>
    intro acc d f h
    cases hext : extractDateFromFilename fn pfx fmt with
    | none =>
      simp only [selectOldestAux, hext] at h
      obtain ⟨hrest, hacc⟩ := ih acc d f h
      refine ⟨fun e he de hde => ?_, hacc⟩
      rcases List.mem_cons.1 he with he' | he'
      · subst he'; rw [hext] at hde; cases hde
      · exact hrest e he' de hde
    | some date =>
      cases acc with
      | none =>
        simp only [selectOldestAux, hext] at h
        obtain ⟨hrest, hacc⟩ := ih _ d f h
        have hd_date : d.key ≤ date.key := hacc date fn rfl
        refine ⟨fun e he de hde => ?_, by simp⟩
        rcases List.mem_cons.1 he with he' | he'
        · subst he'
          rw [hext] at hde
          rw [← Option.some.inj hde]
          exact hd_date
        · exact hrest e he' de hde
      | some acc' =>
        obtain ⟨od, ofn⟩ := acc'
        simp only [selectOldestAux, hext] at h
        by_cases hlt : date.key < od.key
        · rw [if_pos hlt] at h
          obtain ⟨hrest, hacc⟩ := ih _ d f h
          have hd_date : d.key ≤ date.key := hacc date fn rfl
          refine ⟨fun e he de hde => ?_, fun d0 f0 h0 => ?_⟩
          · rcases List.mem_cons.1 he with he' | he'
            · subst he'
              rw [hext] at hde
              rw [← Option.some.inj hde]
              exact hd_date
            · exact hrest e he' de hde
          · simp only [Option.some.injEq, Prod.mk.injEq] at h0
            rw [← h0.1]
            exact le_trans hd_date (le_of_lt hlt)
        · rw [if_neg hlt] at h
          obtain ⟨hrest, hacc⟩ := ih _ d f h
          have hd_od : d.key ≤ od.key := hacc od ofn rfl
          refine ⟨fun e he de hde => ?_, fun d0 f0 h0 => ?_⟩
          · rcases List.mem_cons.1 he with he' | he'
            · subst he'
              rw [hext] at hde
              rw [← Option.some.inj hde]
              exact le_trans hd_od (Nat.le_of_not_lt hlt)
            · exact hrest e he' de hde
          · simp only [Option.some.injEq, Prod.mk.injEq] at h0
            rw [← h0.1]
            exact hd_od

/-- With a non-`none` accumulator or some parseable entry, the fold
returns a candidate. -/
theorem selectOldestAux_isSome (pfx : String) (fmt : List FmtTok) :
    ∀ (dirs : List String) acc,
      (acc.isSome = true ∨ ∃ e ∈ dirs, (extractDateFromFilename e pfx fmt).isSome = true) →
      (selectOldestAux pfx fmt acc dirs).isSome = true := by
  intro dirs
  induction dirs with
  | nil =>
    intro acc h
    rcases h with h | ⟨e, he, _⟩
    · exact h
    · cases he
  | cons fn rest ih =>
    intro acc h
    cases hext : extractDateFromFilename fn pfx fmt with
    | none =>
      simp only [selectOldestAux, hext]
      refine ih acc ?_
      rcases h with h | ⟨e, he, hse⟩
      · exact Or.inl h
      · rcases List.mem_cons.1 he with he' | he'
        · subst he'; rw [hext] at hse; cases hse
        · exact Or.inr ⟨e, he', hse⟩
    | some date =>
      cases acc with
      | none =>
        simp only [selectOldestAux, hext]
        exact ih _ (Or.inl rfl)
      | some acc' =>
        obtain ⟨od, ofn⟩ := acc'
        simp only [selectOldestAux, hext]
        by_cases hlt : date.key < od.key
        · rw [if_pos hlt]; exact ih _ (Or.inl rfl)
        · rw [if_neg hlt]; exact ih _ (Or.inl rfl)

/-- With nothing parseable and no accumulator the fold returns `none`
(`oldest_filename` stays `None`). -/
theorem selectOldestAux_none (pfx : String) (fmt : List FmtTok) :
    ∀ dirs : List String, (∀ e ∈ dirs, extractDateFromFilename e pfx fmt = none) →
      selectOldestAux pfx fmt none dirs = none := by
  intro dirs
  induction dirs with
  | nil => intro _; rfl
  | cons fn rest ih =>
    intro h
    simp only [selectOldestAux, h fn (List.mem_cons_self fn rest)]
    exact ih fun e he => h e (List.mem_cons_of_mem fn he)

theorem filter_length_lt {α : Type} (p : α → Bool) :
    ∀ (l : List α) (a : α), a ∈ l → p a = false → (l.filter p).length < l.length := by
  intro l
  induction l with
  | nil => intro a ha; cases ha
  | cons b t ih =>
    intro a ha hpa
    rcases List.mem_cons.1 ha with ha' | ha'
    · subst ha'
      rw [List.filter_cons, hpa]
      simp only [Bool.false_eq_true, if_neg]
      calc (t.filter p).length ≤ t.length := List.length_filter_le p t
        _ < (a :: t).length := by simp
    · rw [List.filter_cons]
      cases hpb : p b
      · simp only [Bool.false_eq_true, if_neg]
        calc (t.filter p).length < t.length := ih a ha' hpa
          _ ≤ (b :: t).length := by simp
      · simp only [if_pos]
        have := ih a ha' hpa
        simp only [List.length_cons]
        omega

theorem filter_erase_of_not {α : Type} [DecidableEq α] (p : α → Bool) (a : α)
    (hpa : p a = false) : ∀ l : List α, (l.erase a).filter p = l.filter p := by
  intro l
  induction l with
  | nil => rfl
  | cons b t ih =>
    by_cases hba : b = a
    · subst hba
      simp [List.erase_cons, List.filter_cons, hpa]
    · rw [List.erase_cons, if_neg (by simpa using hba), List.filter_cons, List.filter_cons]
      cases hpb : p b <;> simp [ih]

/-- Invariant proof for the retention loop: with every entry parseable
and all dates distinct, the loop exits normally keeping exactly the `K`
entries with the newest dates and deleting the rest — a characterization
depending only on each entry's date, hence identical for every
permutation of the listing. -/
theorem retentionFuel_spec (pfx : String) (fmt : List FmtTok) (K : Nat)
    (dts : String → PyDateTime) :
    ∀ fuel (dirs : List String), dirs.length ≤ fuel →
      (∀ d ∈ dirs, extractDateFromFilename d pfx fmt = some (dts d)) →
      (∀ d ∈ dirs, ∀ e ∈ dirs, d ≠ e → (dts d).key ≠ (dts e).key) →
      dirs.Nodup → K ≤ dirs.length →
      ∃ r del, retentionFuel pfx fmt K fuel dirs = .ok r del ∧
        r.length = K ∧ del.length = dirs.length - K ∧ r ⊆ dirs ∧ del ⊆ dirs ∧
        (∀ d ∈ dirs, (d ∈ r ↔ newerCount dts dirs d < K)) ∧
        (∀ d ∈ dirs, (d ∈ del ↔ K ≤ newerCount dts dirs d)) := by
  intro fuel
  induction fuel with
  | zero =>
    intro dirs hlen hp hinj hnd hK
    have hnil : dirs = [] := List.length_eq_zero.1 (by omega)
    subst hnil
    have hK0 : K = 0 := by simpa using hK
    subst hK0
    exact ⟨[], [], rfl, rfl, rfl, by simp, by simp, by simp, by simp⟩
  | succ fuel ih =>
    intro dirs hlen hp hinj hnd hK
    by_cases hbreak : dirs.length ≤ K
    · have hKlen : K = dirs.length := le_antisymm hK hbreak
      refine ⟨dirs, [], by rw [retentionFuel, if_pos hbreak], hKlen.symm,
        by simp [hKlen], fun x hx => hx, by simp, fun d hd => ?_, fun d hd => ?_⟩
      · have hlt : newerCount dts dirs d < K := by
          rw [hKlen]
          exact filter_length_lt _ dirs d hd (by simp)
        simp [hd, hlt]
      · have hlt : newerCount dts dirs d < K := by
          rw [hKlen]
          exact filter_length_lt _ dirs d hd (by simp)
        simp
        omega
    · have hKlt : K < dirs.length := by omega
      have hne : dirs ≠ [] := by
        intro hcon
        rw [hcon] at hKlt
        cases hKlt
      obtain ⟨e0, he0⟩ := List.exists_mem_of_ne_nil dirs hne
      have hsome : (selectOldestAux pfx fmt none dirs).isSome = true :=
        selectOldestAux_isSome pfx fmt dirs none
          (Or.inr ⟨e0, he0, by rw [hp e0 he0]; rfl⟩)
      obtain ⟨⟨dm, f⟩, hsel⟩ := Option.isSome_iff_exists.1 hsome
      have hself : selectOldest pfx fmt dirs = some (dm, f) := hsel
      rcases selectOldestAux_eq_acc_or pfx fmt dirs none dm f hsel with h | ⟨hfmem, hfext⟩
      · cases h
      have hdm : dm = dts f := by
        have := hp f hfmem
        rw [hfext] at this
        exact Option.some.inj this
      have hmin : ∀ e ∈ dirs, (dts f).key ≤ (dts e).key := by
        intro e he
        have := (selectOldestAux_min pfx fmt dirs none dm f hsel).1 e he (dts e) (hp e he)
        rw [hdm] at this
        exact this
      have hflt : ∀ e ∈ dirs, e ≠ f → (dts f).key < (dts e).key := by
        intro e he hef
        exact Nat.lt_of_le_of_ne (hmin e he) (hinj f hfmem e he (fun h => hef h.symm))
      have hlenerase : (dirs.erase f).length = dirs.length - 1 :=
        List.length_erase_of_mem hfmem
      have hsub' : dirs.erase f ⊆ dirs := List.erase_subset f dirs
      obtain ⟨r, del', heq', hrlen, hdellen, hrsub, hdelsub, hrmem, hdelmem⟩ :=
        ih (dirs.erase f) (by omega)
          (fun d hd => hp d (hsub' hd))
          (fun d hd e he hde => hinj d (hsub' hd) e (hsub' he) hde)
          (hnd.erase f) (by omega)
      have hres : retentionFuel pfx fmt K (fuel + 1) dirs = .ok r (f :: del') := by
        rw [retentionFuel, if_neg hbreak]
        simp only [hself, heq']
      have hcount_f : newerCount dts dirs f = dirs.length - 1 := by
        have hcongr : dirs.filter (fun e => decide ((dts f).key < (dts e).key)) =
            dirs.filter (fun e => e != f) := by
          apply List.filter_congr
          intro e he
          by_cases hef : e = f
          · subst hef
            simp [Nat.lt_irrefl]
          · simp [hef, hflt e he hef]
        rw [newerCount, hcongr, ← hnd.erase_eq_filter f, hlenerase]
      have hcount_other : ∀ d ∈ dirs, d ≠ f →
          newerCount dts (dirs.erase f) d = newerCount dts dirs d := by
        intro d hd hdf
        rw [newerCount, newerCount,
          filter_erase_of_not (fun e => decide ((dts d).key < (dts e).key)) f
            (by simp [Nat.not_lt.2 (hmin d hd)]) dirs]
      have hfnotin : f ∉ dirs.erase f := by
        intro hcon
        exact absurd ((hnd.mem_erase_iff).1 hcon).1 (by simp)
      refine ⟨r, f :: del', hres, hrlen, by simp [hdellen, hlenerase]; omega,
        fun x hx => hsub' (hrsub hx), ?_, fun d hd => ?_, fun d hd => ?_⟩
      · intro x hx
        rcases List.mem_cons.1 hx with hx' | hx'
        · subst hx'; exact hfmem
        · exact hsub' (hdelsub hx')
      · by_cases hdf : d = f
        · subst hdf
          have h1 : d ∉ r := fun hcon => hfnotin (hrsub hcon)
          have h2 : ¬ newerCount dts dirs d < K := by
            rw [hcount_f]
            omega
          simp [h1, h2]
        · have hd' : d ∈ dirs.erase f := (List.mem_erase_of_ne hdf).2 hd
          rw [← hcount_other d hd hdf]
          rw [← hrlen] at hrmem ⊢
          simpa [hrlen] using hrmem d hd'
      · by_cases hdf : d = f
        · subst hdf
          have h2 : K ≤ newerCount dts dirs d := by
            rw [hcount_f]
            omega
          simp [h2]
        · have hd' : d ∈ dirs.erase f := (List.mem_erase_of_ne hdf).2 hd
          rw [← hcount_other d hd hdf]
          simp only [List.mem_cons]
          constructor
          · intro h
            rcases h with h | h
            · exact absurd h hdf
            · exact (hdelmem d hd').1 h
          · intro h
            exact Or.inr ((hdelmem d hd').2 h)

/-- Claim C1 (counterexample): in the spec's scenario (three existing
generations, `keepCount = 2`, the run's own `backup_2024-04-01` created
beforehand) the loop's `len - 1 < archive_number` bound counts the fresh
directory, so it evicts `backup_2024-01-01` AND `backup_2024-02-01`: two
generations remain, not the claimed three, and the eviction is not
limited to `backup_2024-01-01`. -/
theorem c1_scenario_cex :
    retentionLoop "backup_" fmtYMD 2 scenarioDirs =
      .ok ["backup_2024-03-01", "backup_2024-04-01"]
        ["backup_2024-01-01", "backup_2024-02-01"] ∧
    (retentionLoop "backup_" fmtYMD 2 scenarioDirs).remaining.length ≠ 3 ∧
    "backup_2024-02-01" ∈ (retentionLoop "backup_" fmtYMD 2 scenarioDirs).deleted := by
  decide

/-- Claim C1 (amended): counting the freshly created run directory, a
listing of `N` parseable, distinctly dated generations with
`keepCount = K < N` loses exactly the `N - K` oldest and keeps the `K`
newest — membership depends only on each entry's date, so the outcome is
the same for every permutation of the listing order. In the spec's
scenario (`N = 3` existing plus the new directory, `K = 2`) this evicts
`backup_2024-01-01` and `backup_2024-02-01` and retains two. -/
theorem c1_retention_keeps_newest (pfx : String) (fmt : List FmtTok) (K : Nat)
    (dirs : List String) (dts : String → PyDateTime)
    (hp : ∀ d ∈ dirs, extractDateFromFilename d pfx fmt = some (dts d))
    (hinj : ∀ d ∈ dirs, ∀ e ∈ dirs, d ≠ e → (dts d).key ≠ (dts e).key)
    (hnd : dirs.Nodup) (hK : K < dirs.length) :
    ∃ r del, retentionLoop pfx fmt K dirs = .ok r del ∧
      r.length = K ∧ del.length = dirs.length - K ∧
      (∀ d ∈ dirs, (d ∈ r ↔ newerCount dts dirs d < K)) ∧
      (∀ d ∈ dirs, (d ∈ del ↔ K ≤ newerCount dts dirs d)) := by
  obtain ⟨r, del, h1, h2, h3, _, _, h6, h7⟩ :=
    retentionFuel_spec pfx fmt K dts dirs.length dirs le_rfl hp hinj hnd (le_of_lt hK)
  exact ⟨r, del, h1, h2, h3, h6, h7⟩

/-- Witness for C1 (amended), at the spec's scenario listing. -/
theorem c1_retention_keeps_newest_witness :
    ∃ r del, retentionLoop "backup_" fmtYMD 2 scenarioDirs = .ok r del ∧
      r.length = 2 ∧ del.length = scenarioDirs.length - 2 ∧
      (∀ d ∈ scenarioDirs, (d ∈ r ↔ newerCount dtsScenario scenarioDirs d < 2)) ∧
      (∀ d ∈ scenarioDirs, (d ∈ del ↔ 2 ≤ newerCount dtsScenario scenarioDirs d)) :=
  c1_retention_keeps_newest "backup_" fmtYMD 2 scenarioDirs dtsScenario
    (by decide) (by decide) (by decide) (by decide)

/-- Entries without a parseable date survive every iteration of the
retention loop, whatever the fuel. -/
theorem retentionFuel_unparseable (pfx : String) (fmt : List FmtTok) (K : Nat)
    (name : String) (hnone : extractDateFromFilename name pfx fmt = none) :
    ∀ fuel (dirs : List String), name ∈ dirs →
      name ∈ (retentionFuel pfx fmt K fuel dirs).remaining ∧
      name ∉ (retentionFuel pfx fmt K fuel dirs).deleted := by
  intro fuel
  induction fuel with
  | zero =>
    intro dirs hmem
    simp only [retentionFuel, RetentionResult.remaining, RetentionResult.deleted]
    exact ⟨hmem, by simp⟩
  | succ fuel ih =>
    intro dirs hmem
    rw [retentionFuel]
    by_cases hbreak : dirs.length ≤ K
    · rw [if_pos hbreak]
      simp only [RetentionResult.remaining, RetentionResult.deleted]
      exact ⟨hmem, by simp⟩
    · rw [if_neg hbreak]
      cases hsel : selectOldest pfx fmt dirs with
      | none =>
        simp only [RetentionResult.remaining, RetentionResult.deleted]
        exact ⟨hmem, by simp⟩
      | some p =>
        obtain ⟨dm, f⟩ := p
        have hfext : extractDateFromFilename f pfx fmt = some dm := by
          rcases selectOldestAux_eq_acc_or pfx fmt dirs none dm f hsel with h | ⟨_, he⟩
          · cases h
          · exact he
        have hnf : name ≠ f := by
          intro hcon
          rw [hcon, hfext] at hnone
          cases hnone
        have hmem' : name ∈ dirs.erase f := (List.mem_erase_of_ne hnf).2 hmem
        obtain ⟨h1, h2⟩ := ih (dirs.erase f) hmem'
        cases hrec : retentionFuel pfx fmt K fuel (dirs.erase f) with
        | ok r del =>
          rw [hrec] at h1 h2
          simp only [RetentionResult.remaining, RetentionResult.deleted] at h1 h2
          simp only [hrec, RetentionResult.remaining, RetentionResult.deleted]
          exact ⟨h1, by simp [hnf, h2]⟩
        | noCandidate r del =>
          rw [hrec] at h1 h2
          simp only [RetentionResult.remaining, RetentionResult.deleted] at h1 h2
          simp only [hrec, RetentionResult.remaining, RetentionResult.deleted]
          exact ⟨h1, by simp [hnf, h2]⟩

/-- Claim C4: an archive entry whose name yields no parseable date is
never the selected oldest candidate and is never deleted by the
retention pass, regardless of its age. -/
theorem c4_unparseable_never_evicted (pfx : String) (fmt : List FmtTok) (K : Nat)
    (dirs : List String) (name : String)
    (hmem : name ∈ dirs) (hnone : extractDateFromFilename name pfx fmt = none) :
    (∀ dm, selectOldest pfx fmt dirs ≠ some (dm, name)) ∧
    name ∈ (retentionLoop pfx fmt K dirs).remaining ∧
    name ∉ (retentionLoop pfx fmt K dirs).deleted := by
  refine ⟨fun dm h => ?_, retentionFuel_unparseable pfx fmt K name hnone dirs.length dirs hmem⟩
  rcases selectOldestAux_eq_acc_or pfx fmt dirs none dm name h with h' | ⟨_, he⟩
  · cases h'
  · rw [he] at hnone
    cases hnone

/-- Witness for C4: a `junk` entry sits between two dated generations
with `archive_number = 1`; the dated `backup_2024-01-01` is evicted but
`junk` survives. -/
theorem c4_unparseable_never_evicted_witness :
    (∀ dm, selectOldest "backup_" fmtYMD
        ["backup_2024-01-01", "junk", "backup_2024-02-01"] ≠ some (dm, "junk")) ∧
    "junk" ∈ (retentionLoop "backup_" fmtYMD 1
        ["backup_2024-01-01", "junk", "backup_2024-02-01"]).remaining ∧
    "junk" ∉ (retentionLoop "backup_" fmtYMD 1
        ["backup_2024-01-01", "junk", "backup_2024-02-01"]).deleted :=
  c4_unparseable_never_evicted "backup_" fmtYMD 1
    ["backup_2024-01-01", "junk", "backup_2024-02-01"] "junk" (by decide) (by decide)

/-- Claim C3 (counterexample): an over-limit root with only unparseable
entries makes the loop terminate by raising (`os.path.join(root, None)`
→ `TypeError`, re-raised at line 167): the run is aborted, there is no
non-fatal-warning exit. -/
theorem c3_no_candidate_cex :
    runModel envC3 2 = RunOutcome.abortedRetention ["alpha", "beta"] [] := by decide

/-- Claim C3 (amended): over the limit with no parseable oldest
candidate, the eviction loop does terminate — but by raising a fatal
error that aborts the run (modelled by `noCandidate`/`abortedRetention`),
not by signalling a non-fatal warning. -/
theorem c3_no_candidate_fatal (env : RunEnv) (d : Nat)
    (hover : env.archiveNumber < env.dirs.length)
    (hnone : ∀ e ∈ env.dirs, extractDateFromFilename e env.pfx env.fmt = none)
    (hc : createPhase env.directoryTags env.createEnv = CreatePhaseResult.continued) :
    retentionLoop env.pfx env.fmt env.archiveNumber env.dirs =
      RetentionResult.noCandidate env.dirs [] ∧
    runModel env d = RunOutcome.abortedRetention env.dirs [] := by
  have hret : retentionLoop env.pfx env.fmt env.archiveNumber env.dirs =
      RetentionResult.noCandidate env.dirs [] := by
    rw [retentionLoop]
    obtain ⟨m, hm⟩ : ∃ m, env.dirs.length = m + 1 := ⟨env.dirs.length - 1, by omega⟩
    rw [hm, retentionFuel, if_neg (by omega)]
    simp only [selectOldest, selectOldestAux_none env.pfx env.fmt env.dirs hnone]
  refine ⟨hret, ?_⟩
  rw [runModel]
  simp only [hc, hret]

/-- Witness for C3 (amended), at the concrete over-limit unparseable
root of `envC3`. -/
theorem c3_no_candidate_fatal_witness :
    retentionLoop envC3.pfx envC3.fmt envC3.archiveNumber envC3.dirs =
      RetentionResult.noCandidate envC3.dirs [] ∧
    runModel envC3 0 = RunOutcome.abortedRetention envC3.dirs [] :=
  c3_no_candidate_fatal envC3 0 (by decide) (by decide) (by decide)

/-! ## Run-level lemmas -/

/-- When the creation phase swallows its exception (anything but
`FileExistsError`), the run does not abort at creation. -/
theorem runModel_ne_abortedCreation (env : RunEnv) (d : Nat)
    (hc : createPhase env.directoryTags env.createEnv = CreatePhaseResult.continued) :
    runModel env d ≠ RunOutcome.abortedCreation := by
  rw [runModel]
  simp only [hc]
  cases hret : retentionLoop env.pfx env.fmt env.archiveNumber env.dirs with
  | noCandidate rem del => simp
  | ok rem del =>
    by_cases hb : baseDirCreated env.createEnv
    · by_cases hlen :
        (filteredItems env.items env.excludeTypes env.hasMark env.ignoreExisting).length = 0
      · simp [hb, hlen]
      · simp [hb, hlen]
    · simp [hb]

/-- Claim C6 (counterexample): neither part of the claim survives. With
only a tag-subdirectory `os.makedirs` raising `PermissionError`
(`envC6sub`), the run does not abort at all: it deletes
`backup_2024-01-01` in retention, backs the item up and finishes with
`success = True`. With the base `os.makedirs` failing (`envC6`) the run
still does not abort immediately: retention runs first and deletes
`backup_2024-01-01`, and only then does the line-182 persist raise. -/
theorem c6_creation_not_fatal_cex :
    runModel envC6sub 2 =
      RunOutcome.finished (some true) ["backup_2024-03-01"] ["backup_2024-01-01"] ∧
    firstCreationError envC6sub.directoryTags envC6sub.createEnv =
      some MkdirExc.permissionError ∧
    runModel envC6 2 =
      RunOutcome.abortedPersist ["backup_2024-03-01"] ["backup_2024-01-01"] := by decide

/-- Claim C6 (amended): a directory-creation failure aborts the run
immediately exactly when it is a `FileExistsError`. A swallowed failure
of the BASE directory creation still kills the run — but only after the
retention pass has completed (possibly deleting old generations), when
the first ledger persist (line 182) into the never-created run directory
raises an uncaught `FileNotFoundError`; no item backup happens. A
swallowed failure of a tag-subdirectory creation does not abort the run
at all: the base directory exists, the persist succeeds and the backup
phase runs to completion. -/
theorem c6_creation_failure_paths (env : RunEnv) (d : Nat) :
    (runModel env d = RunOutcome.abortedCreation ↔
      firstCreationError env.directoryTags env.createEnv =
        some MkdirExc.fileExistsError) ∧
    ((env.createEnv.baseResult = some MkdirExc.permissionError ∨
      env.createEnv.baseResult = some MkdirExc.otherError) →
      ∀ rem del, retentionLoop env.pfx env.fmt env.archiveNumber env.dirs =
        RetentionResult.ok rem del →
      runModel env d = RunOutcome.abortedPersist rem del) := by
  constructor
  · cases hfe : firstCreationError env.directoryTags env.createEnv with
    | none =>
      have hc : createPhase env.directoryTags env.createEnv = CreatePhaseResult.continued := by
        simp only [createPhase, hfe]
      simp [runModel_ne_abortedCreation env d hc]
    | some e =>
      cases e with
      | fileExistsError =>
        have hc : createPhase env.directoryTags env.createEnv =
            CreatePhaseResult.raisedFileExists := by
          simp only [createPhase, hfe]
        rw [runModel]
        simp [hc]
      | permissionError =>
        have hc : createPhase env.directoryTags env.createEnv = CreatePhaseResult.continued := by
          simp only [createPhase, hfe]
        simp [runModel_ne_abortedCreation env d hc]
      | otherError =>
        have hc : createPhase env.directoryTags env.createEnv = CreatePhaseResult.continued := by
          simp only [createPhase, hfe]
        simp [runModel_ne_abortedCreation env d hc]
  · intro hbase rem del hret
    have hc : createPhase env.directoryTags env.createEnv = CreatePhaseResult.continued := by
      rcases hbase with h | h <;> simp only [createPhase, firstCreationError, h]
    have hb : baseDirCreated env.createEnv = false := by
      rcases hbase with h | h <;> simp [baseDirCreated, h]
    rw [runModel]
    simp only [hc, hret, hb]
    simp

/-- Witness for C6 (amended): the base-failure implication discharged at
`envC6`, whose over-limit root makes retention delete a generation
before the fatal persist. -/
theorem c6_creation_failure_paths_witness :
    runModel envC6 0 =
      RunOutcome.abortedPersist ["backup_2024-03-01"] ["backup_2024-01-01"] :=
  (c6_creation_failure_paths envC6 0).2 (Or.inl rfl)
    ["backup_2024-03-01"] ["backup_2024-01-01"] (by decide)

/-- Claim C9: with `ignore_existing = False` the filter's conjunct
`... and ignore_existing` rejects every search result, so the filtered
list is empty, the run never reaches the backup phase, and on the
canonical path — creation fully succeeded (so the line-182 persist
succeeds) and retention exited normally — it exits through the
zero-items `exit()`. -/
theorem c9_ignore_existing_false_filters_all (env : RunEnv) (d : Nat)
    (h : env.ignoreExisting = false) :
    filteredItems env.items env.excludeTypes env.hasMark env.ignoreExisting = [] ∧
    (∀ ov rem del, runModel env d ≠ RunOutcome.finished ov rem del) ∧
    (firstCreationError env.directoryTags env.createEnv = none →
      ∀ rem del, retentionLoop env.pfx env.fmt env.archiveNumber env.dirs =
        RetentionResult.ok rem del →
      runModel env d = RunOutcome.abortedNoItems rem del) := by
  have hfe : filteredItems env.items env.excludeTypes env.hasMark env.ignoreExisting = [] := by
    rw [h, filteredItems]
    have hall : ∀ it : ProvItem,
        (!(env.excludeTypes.contains it.ty) && (!(env.hasMark it) && false)) = false := by
      intro it
      simp
    simp [hall]
  refine ⟨hfe, ?_, ?_⟩
  · intro ov rem del hcon
    rw [runModel] at hcon
    cases hc : createPhase env.directoryTags env.createEnv with
    | raisedFileExists =>
      simp only [hc] at hcon
      cases hcon
    | continued =>
      simp only [hc] at hcon
      cases hret : retentionLoop env.pfx env.fmt env.archiveNumber env.dirs with
      | noCandidate r dl =>
        simp only [hret] at hcon
        cases hcon
      | ok r dl =>
        simp only [hret, hfe] at hcon
        by_cases hb : baseDirCreated env.createEnv
        · simp [hb] at hcon
        · simp [hb] at hcon
  · intro hclean rem del hret
    have hc : createPhase env.directoryTags env.createEnv = CreatePhaseResult.continued := by
      simp only [createPhase, hclean]
    have hbase : env.createEnv.baseResult = none := by
      cases hres : env.createEnv.baseResult with
      | none => rfl
      | some e =>
        rw [firstCreationError, hres] at hclean
        cases hclean
    have hb : baseDirCreated env.createEnv = true := by
      simp [baseDirCreated, hbase]
    rw [runModel]
    simp only [hc, hret, hfe, hb]
    simp

/-- Witness for C9, at a run with two matching items and
`ignore_existing = False`. -/
theorem c9_ignore_existing_false_filters_all_witness :
    filteredItems envC9.items envC9.excludeTypes envC9.hasMark envC9.ignoreExisting = [] ∧
    (∀ ov rem del, runModel envC9 0 ≠ RunOutcome.finished ov rem del) ∧
    (firstCreationError envC9.directoryTags envC9.createEnv = none →
      ∀ rem del, retentionLoop envC9.pfx envC9.fmt envC9.archiveNumber envC9.dirs =
        RetentionResult.ok rem del →
      runModel envC9 0 = RunOutcome.abortedNoItems rem del) :=
  c9_ignore_existing_false_filters_all envC9 0 rfl

/-! ## Date round-trip lemmas -/

theorem padNum_length : ∀ w v : Nat, (padNum w v).length = w := by
  intro w
  induction w with
  | zero => intro v; rfl
  | succ w ih =>
    intro v
    simp [padNum, ih]

theorem char_digit_isDigit : ∀ m, m < 10 → (Char.ofNat (48 + m)).isDigit = true := by decide

theorem char_digit_toNat : ∀ m, m < 10 → (Char.ofNat (48 + m)).toNat = 48 + m := by decide

theorem padNum_all_digits : ∀ w v : Nat, (padNum w v).all Char.isDigit = true := by
  intro w
  induction w with
  | zero => intro v; rfl
  | succ w ih =>
    intro v
    rw [padNum, List.all_append]
    simp [ih, char_digit_isDigit (v % 10) (Nat.mod_lt v (by omega))]

theorem digitsToNat_append (l : List Char) (c : Char) :
    digitsToNat (l ++ [c]) = digitsToNat l * 10 + (c.toNat - 48) := by
  rw [digitsToNat, digitsToNat, List.foldl_append]
  rfl

theorem digitsToNat_padNum : ∀ w v : Nat, v < 10 ^ w → digitsToNat (padNum w v) = v := by
  intro w
  induction w with
  | zero =>
    intro v hv
    have hv0 : v = 0 := by
      rw [pow_zero] at hv
      omega
    rw [hv0]
    rfl
  | succ w ih =>
    intro v hv
    have hdiv : v / 10 < 10 ^ w := by
      rw [Nat.div_lt_iff_lt_mul (by omega : 0 < 10)]
      calc v < 10 ^ (w + 1) := hv
        _ = 10 ^ w * 10 := by ring
    rw [padNum, digitsToNat_append, ih (v / 10) hdiv,
      char_digit_toNat (v % 10) (Nat.mod_lt v (by omega))]
    omega

theorem daysInMonth_le (y m : Nat) : daysInMonth y m ≤ 31 := by
  rw [daysInMonth]
  by_cases h2 : m = 2
  · rw [if_pos h2]
    split <;> omega
  · rw [if_neg h2]
    split <;> omega

/-- One `\d{w}` pattern element consumes exactly the `w` padded digits. -/
theorem matchRegex_digits_step (w v : Nat) (pat : List RegexTok)
    (tail rest g : List Char) (hmatch : matchRegex pat tail = some (g, rest)) :
    matchRegex (.digits w :: pat) (padNum w v ++ tail) =
      some (padNum w v ++ g, rest) := by
  have hlen := padNum_length w v
  have htake : (padNum w v ++ tail).take w = padNum w v := List.take_left' hlen
  have hdrop : (padNum w v ++ tail).drop w = tail := List.drop_left' hlen
  rw [matchRegex]
  simp only [htake, hdrop, hmatch]
  rw [if_pos ⟨hlen, padNum_all_digits w v⟩]

/-- The compiled date pattern deterministically consumes exactly the
rendered date at the head of the input. -/
theorem matchRegex_strftime (dt : PyDateTime) :
    ∀ (fmt : List FmtTok) (rest : List Char),
      matchRegex (convertDateFormatToRegex fmt) (strftime dt fmt ++ rest) =
        some (strftime dt fmt, rest) := by
  intro fmt
  induction fmt with
  | nil => intro rest; rfl
  | cons t ts ih =>
    intro rest
    cases t with
    | pY =>
      rw [strftime, List.append_assoc, show convertDateFormatToRegex (FmtTok.pY :: ts) =
        RegexTok.digits 4 :: convertDateFormatToRegex ts from rfl]
      exact matchRegex_digits_step 4 dt.year _ _ _ _ (ih rest)
    | pm =>
      rw [strftime, List.append_assoc, show convertDateFormatToRegex (FmtTok.pm :: ts) =
        RegexTok.digits 2 :: convertDateFormatToRegex ts from rfl]
      exact matchRegex_digits_step 2 dt.month _ _ _ _ (ih rest)
    | pd =>
      rw [strftime, List.append_assoc, show convertDateFormatToRegex (FmtTok.pd :: ts) =
        RegexTok.digits 2 :: convertDateFormatToRegex ts from rfl]
      exact matchRegex_digits_step 2 dt.day _ _ _ _ (ih rest)
    | pH =>
      rw [strftime, List.append_assoc, show convertDateFormatToRegex (FmtTok.pH :: ts) =
        RegexTok.digits 2 :: convertDateFormatToRegex ts from rfl]
      exact matchRegex_digits_step 2 dt.hour _ _ _ _ (ih rest)
    | pM =>
      rw [strftime, List.append_assoc, show convertDateFormatToRegex (FmtTok.pM :: ts) =
        RegexTok.digits 2 :: convertDateFormatToRegex ts from rfl]
      exact matchRegex_digits_step 2 dt.minute _ _ _ _ (ih rest)
    | pS =>
      rw [strftime, List.append_assoc, show convertDateFormatToRegex (FmtTok.pS :: ts) =
        RegexTok.digits 2 :: convertDateFormatToRegex ts from rfl]
      exact matchRegex_digits_step 2 dt.second _ _ _ _ (ih rest)
    | lit c =>
      rw [strftime, List.append_assoc, show convertDateFormatToRegex (FmtTok.lit c :: ts) =
        RegexTok.rlit c :: convertDateFormatToRegex ts from rfl,
        show renderTok dt (FmtTok.lit c) = [c] from rfl, List.singleton_append]
      rw [matchRegex, if_pos rfl, ih rest]
      rfl

/-- `re.search` succeeds at position 0 on `prefix ++ body` whenever the
date pattern matches `body`, returning exactly the matched capture. -/
theorem searchPattern_of_match (pfxC : List Char) (pat : List RegexTok)
    (body g rest : List Char) (h : matchRegex pat body = some (g, rest)) :
    searchPattern pfxC pat (pfxC ++ body) = some g := by
  have hmp : matchPrefixThen pfxC pat (pfxC ++ body) = some g := by
    rw [matchPrefixThen, if_pos (List.isPrefixOf_iff_prefix.2 (List.prefix_append pfxC body))]
    rw [List.drop_left]
    simp only [h]
  cases hx : pfxC ++ body with
  | nil =>
    rw [hx] at hmp
    rw [searchPattern]
    exact hmp
  | cons c cs =>
    rw [hx] at hmp
    rw [searchPattern]
    simp only [hmp]

/-- `strptime` on the rendered string collects exactly the rendered
field values. -/
theorem parseRun_strftime (dt : PyDateTime) (hv : dt.Valid) :
    ∀ (fmt : List FmtTok) (f : Fields),
      parseRun fmt (strftime dt fmt) f = some (List.foldl (updField dt) f fmt) := by
  obtain ⟨hy1, hy2, hm1, hm2, hd1, hd2, hH, hM, hS⟩ := hv
  have hd31 : dt.day ≤ 31 := le_trans hd2 (daysInMonth_le dt.year dt.month)
  intro fmt
  induction fmt with
  | nil => intro f; rfl
  | cons t ts ih =>
    intro f
    cases t with
    | pY =>
      rw [strftime, List.foldl_cons]
      simp only [renderTok, updField]
      have hlen := padNum_length 4 dt.year
      rw [parseRun]
      simp only [List.take_left' hlen, List.drop_left' hlen]
      rw [if_pos ⟨hlen, padNum_all_digits 4 dt.year⟩,
        digitsToNat_padNum 4 dt.year (by omega)]
      exact ih _
    | pm =>
      rw [strftime, List.foldl_cons]
      simp only [renderTok, updField]
      have hlen := padNum_length 2 dt.month
      rw [parseRun]
      simp only [List.take_left' hlen, List.drop_left' hlen]
      rw [if_pos ⟨hlen, padNum_all_digits 2 dt.month⟩,
        digitsToNat_padNum 2 dt.month (by omega),
        if_pos ⟨hm1, hm2⟩]
      exact ih _
    | pd =>
      rw [strftime, List.foldl_cons]
      simp only [renderTok, updField]
      have hlen := padNum_length 2 dt.day
      rw [parseRun]
      simp only [List.take_left' hlen, List.drop_left' hlen]
      rw [if_pos ⟨hlen, padNum_all_digits 2 dt.day⟩,
        digitsToNat_padNum 2 dt.day (by omega),
        if_pos ⟨hd1, hd31⟩]
      exact ih _
    | pH =>
      rw [strftime, List.foldl_cons]
      simp only [renderTok, updField]
      have hlen := padNum_length 2 dt.hour
      rw [parseRun]
      simp only [List.take_left' hlen, List.drop_left' hlen]
      rw [if_pos ⟨hlen, padNum_all_digits 2 dt.hour⟩,
        digitsToNat_padNum 2 dt.hour (by omega),
        if_pos (by omega : dt.hour ≤ 23)]
      exact ih _
    | pM =>
      rw [strftime, List.foldl_cons]
      simp only [renderTok, updField]
      have hlen := padNum_length 2 dt.minute
      rw [parseRun]
      simp only [List.take_left' hlen, List.drop_left' hlen]
      rw [if_pos ⟨hlen, padNum_all_digits 2 dt.minute⟩,
        digitsToNat_padNum 2 dt.minute (by omega),
        if_pos (by omega : dt.minute ≤ 59)]
      exact ih _
    | pS =>
      rw [strftime, List.foldl_cons]
      simp only [renderTok, updField]
      have hlen := padNum_length 2 dt.second
      rw [parseRun]
      simp only [List.take_left' hlen, List.drop_left' hlen]
      rw [if_pos ⟨hlen, padNum_all_digits 2 dt.second⟩,
        digitsToNat_padNum 2 dt.second (by omega),
        if_pos (by omega : dt.second ≤ 59)]
      exact ih _
    | lit c =>
      rw [strftime, List.foldl_cons]
      simp only [renderTok, updField, List.singleton_append]
      rw [parseRun, if_pos rfl]
      exact ih _

theorem foldl_updField_y (dt : PyDateTime) :
    ∀ (fmt : List FmtTok) (f : Fields),
      (List.foldl (updField dt) f fmt).y =
        if hasTok fmt .pY then some dt.year else f.y := by
  intro fmt
  induction fmt with
  | nil => intro f; simp [hasTok]
  | cons t ts ih =>
    intro f
    rw [List.foldl_cons, ih]
    cases t <;> simp [hasTok, updField]

theorem foldl_updField_m (dt : PyDateTime) :
    ∀ (fmt : List FmtTok) (f : Fields),
      (List.foldl (updField dt) f fmt).m =
        if hasTok fmt .pm then some dt.month else f.m := by
  intro fmt
  induction fmt with
  | nil => intro f; simp [hasTok]
  | cons t ts ih =>
    intro f
    rw [List.foldl_cons, ih]
    cases t <;> simp [hasTok, updField]

theorem foldl_updField_d (dt : PyDateTime) :
    ∀ (fmt : List FmtTok) (f : Fields),
      (List.foldl (updField dt) f fmt).d =
        if hasTok fmt .pd then some dt.day else f.d := by
  intro fmt
  induction fmt with
  | nil => intro f; simp [hasTok]
  | cons t ts ih =>
    intro f
    rw [List.foldl_cons, ih]
    cases t <;> simp [hasTok, updField]

theorem foldl_updField_hh (dt : PyDateTime) :
    ∀ (fmt : List FmtTok) (f : Fields),
      (List.foldl (updField dt) f fmt).hh =
        if hasTok fmt .pH then some dt.hour else f.hh := by
  intro fmt
  induction fmt with
  | nil => intro f; simp [hasTok]
  | cons t ts ih =>
    intro f
    rw [List.foldl_cons, ih]
    cases t <;> simp [hasTok, updField]

theorem foldl_updField_mm (dt : PyDateTime) :
    ∀ (fmt : List FmtTok) (f : Fields),
      (List.foldl (updField dt) f fmt).mm =
        if hasTok fmt .pM then some dt.minute else f.mm := by
  intro fmt
  induction fmt with
  | nil => intro f; simp [hasTok]
  | cons t ts ih =>
    intro f
    rw [List.foldl_cons, ih]
    cases t <;> simp [hasTok, updField]

theorem foldl_updField_ss (dt : PyDateTime) :
    ∀ (fmt : List FmtTok) (f : Fields),
      (List.foldl (updField dt) f fmt).ss =
        if hasTok fmt .pS then some dt.second else f.ss := by
  intro fmt
  induction fmt with
  | nil => intro f; simp [hasTok]
  | cons t ts ih =>
    intro f
    rw [List.foldl_cons, ih]
    cases t <;> simp [hasTok, updField]

/-- Claim C10 (counterexample): for the valid datetime 2024-02-29 and
the year-less format `%m-%d` (placeholders and a literal separator
only), parsing the rendered name returns `None`, not the truncated
datetime: `strptime` fills in its default year 1900, which is not a
leap year, so constructing `datetime(1900, 2, 29)` raises `ValueError`
(caught at line 57 of the source, yielding `None`). -/
theorem c10_roundtrip_cex :
    PyDateTime.Valid ⟨2024, 2, 29, 0, 0, 0⟩ ∧
    FmtWF fmtMD ∧
    extractDateFromFilename
        ("backup_" ++ String.mk (strftime ⟨2024, 2, 29, 0, 0, 0⟩ fmtMD)) "backup_" fmtMD =
      none ∧
    (none : Option PyDateTime) ≠ some (truncateTo fmtMD ⟨2024, 2, 29, 0, 0, 0⟩) := by
  decide

set_option linter.unusedVariables false in
/-- Claim C10 (amended): rendering a valid datetime into
`prefix ++ strftime(fmt)` and extracting it back yields exactly the
datetime truncated to the fields present in the format — provided the
truncated datetime is itself a constructible date (the counterexample
shows the condition is necessary: Feb 29 under a year-less format meets
the non-leap default year 1900). The `FmtWF` and year hypotheses
delimit the domain on which this embedding is faithful to Python:
separators that are `re`-special characters, repeated directives
(rejected by `strptime`'s group compilation) and years below 1000
(platform-dependent `%Y` padding) are excluded. -/
theorem c10_roundtrip (pfx : String) (fmt : List FmtTok) (dt : PyDateTime)
    (hwf : FmtWF fmt) (hv : dt.Valid) (hy : 1000 ≤ dt.year)
    (htr : (truncateTo fmt dt).day ≤
      daysInMonth (truncateTo fmt dt).year (truncateTo fmt dt).month) :
    extractDateFromFilename (pfx ++ String.mk (strftime dt fmt)) pfx fmt =
      some (truncateTo fmt dt) := by
  have hmatch : matchRegex (convertDateFormatToRegex fmt) (strftime dt fmt) =
      some (strftime dt fmt, []) := by
    have h := matchRegex_strftime dt fmt []
    rwa [List.append_nil] at h
  have hsearch : searchPattern pfx.data (convertDateFormatToRegex fmt)
      (pfx.data ++ strftime dt fmt) = some (strftime dt fmt) :=
    searchPattern_of_match _ _ _ _ _ hmatch
  have hdata : (pfx ++ String.mk (strftime dt fmt)).data = pfx.data ++ strftime dt fmt := rfl
  rw [extractDateFromFilename, hdata]
  simp only [hsearch]
  simp only [strptimeTok, parseRun_strftime dt hv fmt Fields.empty]
  simp only [foldl_updField_y dt, foldl_updField_m dt, foldl_updField_d dt,
    foldl_updField_hh dt, foldl_updField_mm dt, foldl_updField_ss dt, Fields.empty]
  obtain ⟨hy1, hy2, hm1, hm2, hd1, hd2, hH, hM, hS⟩ := hv
  have hgy : (if hasTok fmt FmtTok.pY then some dt.year else none).getD 1900 =
      (truncateTo fmt dt).year := by
    by_cases h : hasTok fmt FmtTok.pY <;> simp [truncateTo, h]
  have hgm : (if hasTok fmt FmtTok.pm then some dt.month else none).getD 1 =
      (truncateTo fmt dt).month := by
    by_cases h : hasTok fmt FmtTok.pm <;> simp [truncateTo, h]
  have hgd : (if hasTok fmt FmtTok.pd then some dt.day else none).getD 1 =
      (truncateTo fmt dt).day := by
    by_cases h : hasTok fmt FmtTok.pd <;> simp [truncateTo, h]
  have hgH : (if hasTok fmt FmtTok.pH then some dt.hour else none).getD 0 =
      (truncateTo fmt dt).hour := by
    by_cases h : hasTok fmt FmtTok.pH <;> simp [truncateTo, h]
  have hgM : (if hasTok fmt FmtTok.pM then some dt.minute else none).getD 0 =
      (truncateTo fmt dt).minute := by
    by_cases h : hasTok fmt FmtTok.pM <;> simp [truncateTo, h]
  have hgS : (if hasTok fmt FmtTok.pS then some dt.second else none).getD 0 =
      (truncateTo fmt dt).second := by
    by_cases h : hasTok fmt FmtTok.pS <;> simp [truncateTo, h]
  rw [hgy, hgm, hgd, hgH, hgM, hgS]
  have hty1 : 1 ≤ (truncateTo fmt dt).year := by
    by_cases h : hasTok fmt FmtTok.pY
    · simp only [truncateTo, if_pos h]
      omega
    · simp only [truncateTo, if_neg h]
      omega
  rw [if_pos ⟨hty1, htr⟩]

/-- Witness for C10 (amended): `backup_` prefix, format `%Y-%m-%d` and
the datetime 2024-04-01. -/
theorem c10_roundtrip_witness :
    extractDateFromFilename
        ("backup_" ++ String.mk (strftime ⟨2024, 4, 1, 0, 0, 0⟩ fmtYMD)) "backup_" fmtYMD =
      some (truncateTo fmtYMD ⟨2024, 4, 1, 0, 0, 0⟩) :=
  c10_roundtrip "backup_" fmtYMD ⟨2024, 4, 1, 0, 0, 0⟩ (by decide) (by decide)
    (by decide) (by decide)
